import Mathlib
/-!
Verification development for the `grammar` Go package: regexp rules with
comments and whitespace, composed by string interpolation of subrules,
topologically sorted by their dependencies and compiled to regexps.

Strings are modelled as `List Char`. Go map iteration is modelled by
association lists in insertion order. Loops whose argument shrinks by a
non-structural step take an explicit fuel argument; every caller passes a
fuel that provably exceeds the number of iterations, so the fuel-exhausted
branch is unreachable there.
-/

/-- Name of a rule or grammar, a Go string modelled as a character list. -/
abbrev Name := List Char

/-- Left curly bracket character, written via its code point. -/
def lbrace : Char := Char.ofNat 123

/-- Right curly bracket character, written via its code point. -/
def rbrace : Char := Char.ofNat 125

/-- Whitespace in the sense of the Go regexp class backslash-s,
which is exactly tab, newline, form feed, carriage return and space. -/
def goSpace (c : Char) : Bool :=
  c = ' ' || c = '\t' || c = '\n' || c = '\x0c' || c = '\r'

/-- Word character in the sense of the Go regexp class backslash-w:
ASCII letters, digits and underscore. -/
def isWordChar (c : Char) : Bool :=
  c.isAlphanum || c = '_'

/-- Scan for a double-slash occurrence; used to characterise the inputs on
which comment stripping is the identity. -/
def noDoubleSlash : List Char → Bool
  | [] => true
  | c :: rest => if c = '/' ∧ rest.head? = some '/' then false else noDoubleSlash rest

/-- One pass of the Go regexp rxComment replacement, multiline mode:
from every double slash everything up to (but excluding) the end of its
line is removed. Fuel exceeds the input length at every call site. -/
def stripComments : ℕ → List Char → List Char
  | 0, s => s
  | _ + 1, [] => []
  | fuel + 1, c :: rest =>
    if c = '/' ∧ rest.head? = some '/' then
      stripComments fuel (rest.dropWhile (fun ch => decide (ch ≠ '\n')))
    else c :: stripComments fuel rest

/-- Trim removes all comments and whitespace from a string: first the
rxComment replacement, then the rxSpaces replacement (which deletes every
whitespace character). Mirrors `Trim` in grammar.go. -/
def Trim (s : List Char) : List Char :=
  (stripComments (s.length + 1) s).filter (fun c => !(goSpace c))

/-- Validity of a rule name, mirroring rxMatchSubRuleStrict: a leading
ASCII letter or underscore followed by word characters only. -/
def isValidRuleName : Name → Bool
  | [] => false
  | c :: rest => (c.isAlpha || c = '_') && rest.all isWordChar

/-- Abstract syntax of the regexp fragment used by the package: empty
string, character class (possibly negated) given by closed ranges,
concatenation, alternation, Kleene star, and the two anchors. The Go
regexp engine is modelled only on this fragment. -/
inductive RE where
  | eps : RE
  | cls : Bool → List (Char × Char) → RE
  | cat : RE → RE → RE
  | alt : RE → RE → RE
  | star : RE → RE
  | bol : RE
  | eol : RE
deriving DecidableEq

/-- Size of a regexp term, used to bound the fuel of the matcher. -/
def reSize : RE → ℕ
  | .eps | .bol | .eol => 1
  | .cls _ _ => 1
  | .cat a b | .alt a b => reSize a + reSize b + 1
  | .star a => reSize a + 1

/-- Backtracking matcher in continuation style. `n` is the total input
length (so the caret anchor holds exactly when the remaining input still
has length `n`), `s` the remaining input and `k` the continuation. The
boolean result is existence of a match, which is what MatchString
reports; Go match priorities only influence submatches, not existence. -/
def reM : ℕ → RE → ℕ → List Char → (List Char → Bool) → Bool
  | 0, _, _, _, _ => false
  | fuel + 1, re, n, s, k =>
    match re with
    | .eps => k s
    | .bol => if s.length = n then k s else false
    | .eol => if s.isEmpty then k s else false
    | .cls neg items =>
      match s with
      | [] => false
      | c :: rest =>
        if (items.any (fun p => decide (p.1 ≤ c) && decide (c ≤ p.2))) ≠ neg then k rest
        else false
    | .cat a b => reM fuel a n s (fun s1 => reM fuel b n s1 k)
    | .alt a b => reM fuel a n s k || reM fuel b n s k
    | .star a =>
      k s || reM fuel a n s
        (fun s1 => if s1.length < s.length then reM fuel (.star a) n s1 k else false)

/-- Unanchored search, the boolean semantics of Go MatchString: some
suffix start position admits a match. -/
def reSearch (re : RE) (s : List Char) : Bool :=
  (List.range (s.length + 1)).any
    (fun i => reM ((reSize re + 2) * (s.length + 2) + 2) re s.length (s.drop i) (fun _ => true))

/-- Escape sequences accepted by the modelled parser outside classes:
the three Perl classes d, s, w and self-escaped punctuation. -/
def parseEsc : List Char → Option (RE × List Char)
  | [] => none
  | c :: rest =>
    if c = 'd' then some (.cls false [('0', '9')], rest)
    else if c = 's' then
      some (.cls false [('\t', '\t'), ('\n', '\n'), ('\x0c', '\x0c'), ('\r', '\r'), (' ', ' ')], rest)
    else if c = 'w' then
      some (.cls false [('0', '9'), ('A', 'Z'), ('_', '_'), ('a', 'z')], rest)
    else if c ∈ ['\\', '.', '+', '*', '?', '(', ')', '[', ']', '$', '^', '|', '/', '-', lbrace, rbrace] then
      some (.cls false [(c, c)], rest)
    else none

/-- Items of a bracket character class: plain characters and ranges,
terminated by a closing bracket. Fuel exceeds the input length at every
call site. -/
def parseClsItems : ℕ → List Char → Option (List (Char × Char) × List Char)
  | 0, _ => none
  | _ + 1, [] => none
  | fuel + 1, c :: rest =>
    if c = ']' then some ([], rest)
    else
      let step : Option (Char × List Char) :=
        if c = '\\' then
          match rest with
          | [] => none
          | c2 :: rest2 => some (c2, rest2)
        else some (c, rest)
      match step with
      | none => none
      | some (c1, s1) =>
        match s1 with
        | '-' :: c2 :: s2 =>
          if c2 = ']' then
            match parseClsItems fuel s1 with
            | some (items, s3) => some ((c1, c1) :: items, s3)
            | none => none
          else
            match parseClsItems fuel s2 with
            | some (items, s3) => some ((c1, c2) :: items, s3)
            | none => none
        | _ =>
          match parseClsItems fuel s1 with
          | some (items, s3) => some ((c1, c1) :: items, s3)
          | none => none

/-- Recursive-descent parser for the modelled regexp fragment. The second
argument is the precedence level: 0 alternation, 1 concatenation,
2 postfix repetition, 3 and above an atom. Patterns outside the fragment
(counted repetitions, named classes, flags) are rejected; all patterns
appearing in this development lie inside the fragment. -/
def parseRE : ℕ → ℕ → List Char → Option (RE × List Char)
  | 0, _, _ => none
  | fuel + 1, 0, s =>
    match parseRE fuel 1 s with
    | none => none
    | some (r, s1) =>
      if s1.head? = some '|' then
        match parseRE fuel 0 s1.tail with
        | some (r2, s2) => some (.alt r r2, s2)
        | none => none
      else some (r, s1)
  | fuel + 1, 1, s =>
    if s.head? = some '|' ∨ s.head? = some ')' ∨ s.isEmpty then some (.eps, s)
    else
      match parseRE fuel 2 s with
      | none => none
      | some (r, s1) =>
        match parseRE fuel 1 s1 with
        | some (r2, s2) => some (.cat r r2, s2)
        | none => none
  | fuel + 1, 2, s =>
    match parseRE fuel 3 s with
    | none => none
    | some (r, s1) =>
      match s1.head? with
      | some c =>
        if c = '*' then some (.star r, s1.tail)
        else if c = '+' then some (.cat r (.star r), s1.tail)
        else if c = '?' then some (.alt r .eps, s1.tail)
        else some (r, s1)
      | none => some (r, s1)
  | fuel + 1, _ + 3, s =>
    match s with
    | [] => none
    | c :: rest =>
      if c = '\\' then parseEsc rest
      else if c = '(' then
        if rest.head? = some '?' then
          if rest.tail.head? = some ':' then
            match parseRE fuel 0 rest.tail.tail with
            | some (r, s1) => if s1.head? = some ')' then some (r, s1.tail) else none
            | none => none
          else none
        else
          match parseRE fuel 0 rest with
          | some (r, s1) => if s1.head? = some ')' then some (r, s1.tail) else none
          | none => none
      else if c = '[' then
        match (if rest.head? = some '^' then
                 (parseClsItems (rest.tail.length + 1) rest.tail).map (fun p => ((true, p.1), p.2))
               else
                 (parseClsItems (rest.length + 1) rest).map (fun p => ((false, p.1), p.2))) with
        | some ((neg, items), s1) => if items.isEmpty then none else some (.cls neg items, s1)
        | none => none
      else if c = '^' then some (.bol, rest)
      else if c = '$' then some (.eol, rest)
      else if c = '.' then some (.cls true [('\n', '\n')], rest)
      else if c = '*' ∨ c = '+' ∨ c = '?' ∨ c = ')' ∨ c = '|' ∨ c = lbrace ∨ c = rbrace then none
      else some (.cls false [(c, c)], rest)

/-- Model of regexp.Compile on the fragment: parse the whole string or
report a syntax error. -/
def regexpCompile (s : List Char) : Except Unit RE :=
  match parseRE (4 * (s.length + 2)) 0 s with
  | some (r, []) => .ok r
  | _ => .error ()

/-- Scanner behind findSubrules: leftmost non-overlapping matches of the
relaxed pattern dollar, left brace, one or more non-brace characters,
right brace; the captured inner text is collected in occurrence order.
On a failed candidate the search resumes one position further right.
Fuel exceeds the input length at every call site. -/
def scanSubrules : ℕ → List Char → List Name
  | 0, _ => []
  | _ + 1, [] => []
  | fuel + 1, c :: s1 =>
    if c = '$' ∧ s1.head? = some lbrace then
      let rest := s1.tail
      let run := rest.takeWhile (fun ch => decide (ch ≠ lbrace ∧ ch ≠ rbrace))
      let rest1 := rest.dropWhile (fun ch => decide (ch ≠ lbrace ∧ ch ≠ rbrace))
      if rest1.head? = some rbrace ∧ run ≠ [] then run :: scanSubrules fuel rest1.tail
      else scanSubrules fuel s1
    else scanSubrules fuel s1

/-- Association-list lookup with the first binding winning, the model of
a Go map read. -/
def lookupN : List (Name × Name) → Name → Option Name
  | [], _ => none
  | p :: rest, n => if p.1 = n then some p.2 else lookupN rest n

/-- Keywords of the text/template lexer: an action consisting of one of
these words is a parse error in this position, even when a function of
that name is bound in the function map. -/
def tmplKeywords : List Name :=
  ["block".data, "break".data, "continue".data, "define".data, "else".data,
   "end".data, "if".data, "nil".data, "range".data, "template".data, "with".data]

/-- Model of the text/template step of `compile` with the function map
built from `replace` and the delimiters dollar-brace and right brace:
plain text is copied; an action that is a bare identifier is lexed the
way the template lexer does — the words true and false are boolean
literals and print their own text (the function map is not consulted),
the template keywords are a parse error, and any other identifier must
be bound in the map and expands to its value, inserted without
rescanning; any other action content — a second left brace as in the
double-brace typo, an unknown identifier, an unclosed action — is a
template error, modelled as `none`. Fuel exceeds the input length at
every call site. -/
def interp : ℕ → List (Name × Name) → List Char → Option (List Char)
  | 0, _, _ => none
  | _ + 1, _, [] => some []
  | fuel + 1, rp, c :: s1 =>
    if c = '$' ∧ s1.head? = some lbrace then
      let rest := s1.tail
      let run := rest.takeWhile isWordChar
      let rest1 := rest.dropWhile isWordChar
      if rest1.head? = some rbrace then
        if run.isEmpty then none
        else if run = "true".data ∨ run = "false".data then
          (interp fuel rp rest1.tail).map (fun t => run ++ t)
        else if run ∈ tmplKeywords then none
        else
          match lookupN rp run with
          | some v => (interp fuel rp rest1.tail).map (fun t => v ++ t)
          | none => none
      else none
    else (interp fuel rp s1).map (fun t => c :: t)

/-- Rule record: name, referenced subrule names, stored pattern text,
fully expanded text and the compiled regexp (absent until compiled).
Mirrors the `rule` struct; the Go zero values are the empty string and
the nil pointer. -/
structure rule where
  name : Name
  subrules : List Name
  pattern : Name
  final : Name
  rx : Option RE
deriving DecidableEq

instance : Inhabited rule := ⟨⟨[], [], [], [], none⟩⟩

/-- Grammar: its name, the rule store (an association list standing for
the Go map, keyed by rule name) and the one-shot compiled flag. -/
structure Grammar where
  name : Name
  rules : List (Name × rule)
  compiled : Bool
deriving DecidableEq

/-- Rule names present in the store. -/
def keys (g : Grammar) : List Name :=
  g.rules.map (·.1)

/-- Association-list lookup in the rule store. -/
def lookupR : List (Name × rule) → Name → Option rule
  | [], _ => none
  | p :: rest, n => if p.1 = n then some p.2 else lookupR rest n

/-- Rule store read, the model of the Go map access. -/
def findRule (g : Grammar) (n : Name) : Option rule :=
  lookupR g.rules n

/-- Grammar constructor, mirroring `New`. -/
def New (name : Name) : Grammar :=
  ⟨name, [], false⟩

/-- Errors returned by the package, one constructor per fmt.Errorf site,
carrying the same data the Go message carries. The two template error
sites (parse and execute) are merged into one constructor. -/
inductive GErr where
  | invalidRuleName (g r : Name)
  | alreadyCompiledAdd (g r : Name)
  | duplicateRule (g r : Name)
  | invalidSubruleName (g r sub : Name)
  | selfReference (g r : Name)
  | alreadyCompiled (g : Name)
  | missingSubrule (g r sub : Name)
  | cyclicDependency (g : Name) (remaining : List Name)
  | templateErr (g r : Name)
  | regexpErr (g r : Name)
  | ruleNotAdded (g r : Name)
  | notCompiled (g : Name)
deriving DecidableEq

/-- Validation loop over the scanned subrule names inside `add`: for each
name in order, first the strict-identifier check, then the self-reference
check. -/
def checkSubrules (gname rn : Name) : List Name → Option GErr
  | [] => none
  | s :: rest =>
    if ¬ isValidRuleName s then some (.invalidSubruleName gname rn s)
    else if s = rn then some (.selfReference gname rn)
    else checkSubrules gname rn rest

/-- Scan of a rule for its subrule references, mirroring findSubrules. -/
def findSubrules (r : rule) : List Name :=
  scanSubrules (r.pattern.length + 1) r.pattern

/-- Lower-case `add`: validate the rule name, refuse a compiled grammar,
refuse a duplicate, scan and validate subrule references, then store the
rule. Returns the error (if any) together with the resulting grammar;
every error leaves the grammar unchanged, as in Go where the map insert
is the last statement. -/
def add (g : Grammar) (rn pat : Name) : Option GErr × Grammar :=
  if ¬ isValidRuleName rn then (some (.invalidRuleName g.name rn), g)
  else if g.compiled then (some (.alreadyCompiledAdd g.name rn), g)
  else if (findRule g rn).isSome then (some (.duplicateRule g.name rn), g)
  else
    match checkSubrules g.name rn (findSubrules ⟨rn, [], pat, [], none⟩) with
    | some e => (some e, g)
    | none =>
      (none, { g with rules := g.rules ++
        [(rn, { name := rn, subrules := findSubrules ⟨rn, [], pat, [], none⟩,
                pattern := pat, final := [], rx := none })] })

/-- Add with trimming, mirroring `Add`; named `Add'` because `Add` is a
type class of the Lean library. -/
def Add' (g : Grammar) (rn pat : Name) : Option GErr × Grammar :=
  add g rn (Trim pat)

/-- Add without trimming, mirroring `AddVerbatim`. -/
def AddVerbatim (g : Grammar) (rn pat : Name) : Option GErr × Grammar :=
  add g rn pat

/-- Lookup of a compiled rule, mirroring `Rx`: unknown name first, then
the not-compiled check, then the stored regexp. -/
def Rx (g : Grammar) (n : Name) : Except GErr (Option RE) :=
  match findRule g n with
  | none => .error (.ruleNotAdded g.name n)
  | some r => if ¬ g.compiled then .error (.notCompiled g.name) else .ok r.rx

/-- Nodes of the dependency structure whose link set is empty, in store
order, mirroring nodesWithoutLinks. -/
def nodesWithoutLinks (dag : List (Name × List Name)) : List Name :=
  (dag.filter (fun p => p.2.isEmpty)).map (·.1)

/-- Loop of the topological sort: extract all nodes without links,
append them to the result, delete them from the structure and from every
remaining link set; stall with the remaining names if no node is free.
A link set is a Go set, so deletion removes every occurrence, which
`filter` does. Fuel exceeds the node count at every call site. -/
def topoLoop : ℕ → List (Name × List Name) → List Name → Except (List Name) (List Name)
  | 0, dag, _ => .error (dag.map (·.1))
  | fuel + 1, dag, acc =>
    if dag.isEmpty then .ok acc
    else
      let next := nodesWithoutLinks dag
      if next.isEmpty then .error (dag.map (·.1))
      else
        topoLoop fuel
          ((dag.filter (fun p => !(decide (p.1 ∈ next)))).map
            (fun p => (p.1, p.2.filter (fun l => !(decide (l ∈ next))))))
          (acc ++ next)

/-- Topological sort of the rules by their subrule links, mirroring
`toposort`. -/
def toposort (g : Grammar) : Except (List Name) (List Name) :=
  topoLoop (g.rules.length + 1) (g.rules.map (fun p => (p.1, p.2.subrules))) []

/-- Result of the per-rule `compile`: success or a template or regexp
error, each carrying the updated rule record, or the logic-error panic
raised when the rule already holds a compiled regexp. -/
inductive RCRes where
  | ok (r : rule)
  | errT (r : rule)
  | errRx (r : rule)
  | stuck
deriving DecidableEq

/-- Per-rule `compile`: panic if the rule is already compiled, then
interpolate the pattern through the template model, store the expanded
text, and compile it to a regexp. The expanded text is stored before the
regexp step, so it survives a regexp syntax error, as in Go. -/
def ruleCompile (r : rule) (replace : List (Name × Name)) : RCRes :=
  if r.rx ≠ none then .stuck
  else
    match interp (r.pattern.length + 1) replace r.pattern with
    | none => .errT r
    | some f =>
      match regexpCompile f with
      | .error _ => .errRx { r with final := f }
      | .ok re => .ok { r with final := f, rx := some re }

/-- Outcome of `Compile`: success, an error, or a panic, each carrying
the grammar state as it stands at that moment (Go mutates the rule
records in place, so a failed walk keeps its partial progress). -/
inductive Outcome where
  | ok (g : Grammar)
  | err (e : GErr) (g : Grammar)
  | panicked (msg : List Char) (g : Grammar)
deriving DecidableEq

/-- In-place update of one rule record, the model of mutating through
the stored pointer. -/
def updateRule (g : Grammar) (n : Name) (r : rule) : Grammar :=
  { g with rules := g.rules.map (fun p => if p.1 = n then (n, r) else p) }

/-- Walk of the sorted rule names: build the replacement map from the
already expanded subrules, run the per-rule compile, thread the updated
state; on full success set the compiled flag. A missing rule on the walk
would be a nil map read followed by a nil dereference in Go, modelled as
a panic; `Compile` never reaches it. -/
def compileWalk (g : Grammar) : List Name → Outcome
  | [] => .ok { g with compiled := true }
  | n :: rest =>
    match findRule g n with
    | none => .panicked "runtime error, invalid memory address".data g
    | some r =>
      if r.subrules.all (fun sn => (findRule g sn).isSome) then
        match ruleCompile r (r.subrules.map (fun sn => (sn, ((findRule g sn).getD default).final))) with
        | .stuck => .panicked "logic error, rule is already compiled".data g
        | .errT r1 => .err (.templateErr g.name n) (updateRule g n r1)
        | .errRx r1 => .err (.regexpErr g.name n) (updateRule g n r1)
        | .ok r1 => compileWalk (updateRule g n r1) rest
      else .panicked "runtime error, invalid memory address".data g

/-- First rule whose subrule list mentions a name that is not stored, in
store order; the model of the existence check at the top of `Compile`. -/
def findMissing (g : Grammar) : Option (Name × Name) :=
  g.rules.findSome? (fun p =>
    (p.2.subrules.find? (fun sn => !(findRule g sn).isSome)).map (fun sn => (p.1, sn)))

/-- Compile all rules, mirroring `Grammar.Compile`: refuse a compiled
grammar, check that every referenced subrule exists, topologically sort,
then walk the order interpolating and compiling every rule. -/
def Compile (g : Grammar) : Outcome :=
  if g.compiled then .err (.alreadyCompiled g.name) g
  else
    match findMissing g with
    | some (rn, sn) => .err (.missingSubrule g.name rn sn) g
    | none =>
      match toposort g with
      | .error remaining => .err (.cyclicDependency g.name remaining) g
      | .ok sorted => compileWalk g sorted

/-- Dependency edge of a grammar: rule `a` references name `b`. -/
def edge (g : Grammar) (a b : Name) : Prop :=
  ∃ p ∈ g.rules, p.1 = a ∧ b ∈ p.2.subrules

/-- Every referenced subrule name is present in the store. -/
def Closed (g : Grammar) : Prop :=
  ∀ p ∈ g.rules, ∀ sn ∈ p.2.subrules, sn ∈ keys g

/-- Acyclicity of the dependency graph: no name reaches itself through
one or more edges. -/
def Acyclic (g : Grammar) : Prop :=
  ∀ n, ¬ Relation.TransGen (edge g) n n

/-- Position of the first occurrence of a name in a list; used to state
that the sorted order places dependencies first. -/
def posOf : List Name → Name → ℕ
  | [], _ => 0
  | c :: rest, a => if c = a then 0 else posOf rest a + 1

instance decClosed (g : Grammar) : Decidable (Closed g) := by
  unfold Closed
  infer_instance

instance decEdge (g : Grammar) (a b : Name) : Decidable (edge g a b) := by
  unfold edge
  infer_instance

/-- Prefix test on character lists, used by the specification-level
replacement below. -/
def isPre : List Char → List Char → Bool
  | [], _ => true
  | _ :: _, [] => false
  | a :: as, b :: bs => a = b && isPre as bs

/-- Literal placeholder token of a name: dollar, left brace, the name,
right brace. -/
def phTok (n : Name) : List Char :=
  '$' :: lbrace :: (n ++ [rbrace])

/-- Replacement step as the specification words it, written for
comparison with the implementation-level `interp`: scanning left to
right, every occurrence of a placeholder token of a mapped name is
replaced by the mapped expansion of that name, the first binding winning;
the inserted expansion is skipped over, never rescanned; all other text
is copied unchanged. Fuel exceeds the input length at every call site. -/
def specInterpolate : ℕ → List (Name × Name) → List Char → List Char
  | 0, _, s => s
  | _ + 1, _, [] => []
  | fuel + 1, rp, c :: s1 =>
    match rp.find? (fun p => isPre (phTok p.1) (c :: s1)) with
    | some p => p.2 ++ specInterpolate fuel rp ((c :: s1).drop (phTok p.1).length)
    | none => c :: specInterpolate fuel rp s1

/-- Well-formedness of a pattern with respect to a key list: every
dollar-left-brace occurrence opens a placeholder consisting of a
nonempty identifier bound in the keys and a closing right brace. -/
def wfT : ℕ → List Name → List Char → Bool
  | 0, _, _ => false
  | _ + 1, _, [] => true
  | fuel + 1, ks, c :: s1 =>
    if c = '$' ∧ s1.head? = some lbrace then
      if (s1.tail.dropWhile isWordChar).head? = some rbrace then
        (!(s1.tail.takeWhile isWordChar).isEmpty) &&
          decide (s1.tail.takeWhile isWordChar ∈ ks) &&
          wfT fuel ks (s1.tail.dropWhile isWordChar).tail
      else false
    else wfT fuel ks s1

/-- Grammar carried inside an outcome, whatever the outcome. -/
def stateOf : Outcome → Grammar
  | .ok g => g
  | .err _ g => g
  | .panicked _ g => g

/-- Grammar of a successful outcome. -/
def compiledOf : Outcome → Option Grammar
  | .ok g => some g
  | _ => none

/-- Raw NUMBER rule text of the end-to-end example. -/
def c1numberRaw : Name :=
  "[+-]? (?: \\d+\\.\\d+ | \\d+\\. | \\.\\d+ | \\d+ ) (?: [eE][+-]?\\d+ )?".data

/-- Raw MANY rule text of the end-to-end example. -/
def c1manyRaw : Name :=
  "^\\s* $\x7bNUMBER\x7d (?:\\s+$\x7bNUMBER\x7d)+ $".data

/-- Grammar of the end-to-end example after both adds. -/
def c1g : Grammar :=
  (Add' (Add' (New "G".data) "NUMBER".data c1numberRaw).2 "MANY".data c1manyRaw).2

/-- Expanded text the end-to-end example must produce for MANY. -/
def c1expected : Name :=
  "^\\s*[+-]?(?:\\d+\\.\\d+|\\d+\\.|\\.\\d+|\\d+)(?:[eE][+-]?\\d+)?(?:\\s+[+-]?(?:\\d+\\.\\d+|\\d+\\.|\\.\\d+|\\d+)(?:[eE][+-]?\\d+)?)+$".data

/-- Expanded text of MANY after compiling the end-to-end example. -/
def c1final : Option Name :=
  (compiledOf (Compile c1g)).bind (fun g2 => (findRule g2 "MANY".data).map (·.final))

/-- Match result of the compiled MANY pattern on the sample input. -/
def c1match : Option Bool :=
  (compiledOf (Compile c1g)).bind (fun g2 => (findRule g2 "MANY".data).bind
    (fun r => r.rx.map (fun re => reSearch re "1.23 3.1415 0.5e3".data)))

/-- Grammar with the double-brace typo of TestTemplateError. -/
def c4g : Grammar :=
  (Add' (Add' (New "TEST".data) "ONE".data "world".data).2
    "TWO".data "hello $\x7b\x7bONE\x7d\x7d".data).2

/-- State after the failing compile of the double-brace grammar. -/
def c4gAfter : Grammar := stateOf (Compile c4g)

/-- Grammar with a rule named like the boolean literal true and a rule
whose placeholder names it. -/
def c4trueG : Grammar :=
  (Add' (Add' (New "TB".data) "true".data "abc".data).2 "X".data "x${true}y".data).2

/-- Grammar with a rule named like the template keyword if and a rule
whose placeholder names it. -/
def c4ifG : Grammar :=
  (Add' (Add' (New "KW".data) "if".data "abc".data).2 "X".data "x${if}y".data).2

/-- Grammar whose only rule references a missing subrule. -/
def c5g1 : Grammar := (Add' (New "T".data) "ONE".data "$\x7bTWO\x7dx".data).2

/-- The same grammar after the missing rule has been added. -/
def c5g2 : Grammar := (Add' c5g1 "TWO".data "y".data).2

/-- State after the successful retry compile. -/
def c5g3 : Grammar := stateOf (Compile c5g2)

/-- Grammar used for the missing-rule lookup witness. -/
def c7g : Grammar :=
  (Add' (New "T".data) "ONE".data "interpolate $\x7bTWO\x7d here".data).2

/-- Grammar holding one rule, used for the duplicate-add witness. -/
def c8dupG : Grammar := (Add' (New "T".data) "ONE".data "x".data).2

/-- Grammar whose second rule expands to an invalid regexp. -/
def c9g : Grammar :=
  (Add' (Add' (New "P".data) "A".data "a".data).2 "B".data "($\x7bA\x7d".data).2

/-- State after the first, partially compiled, failing compile. -/
def c9gAfter : Grammar := stateOf (Compile c9g)

/-- Acyclic two-rule grammar for the toposort witness. -/
def c2g : Grammar := (Add' (Add' (New "W".data) "A".data "a".data).2 "B".data "b".data).2

/-- Three mutually referencing rules, the cycle of TestCyclicReference. -/
def c3g : Grammar :=
  (Add' (Add' (Add' (New "C".data) "ONE".data "interpolate $\x7bTWO\x7d here".data).2
    "TWO".data "interpolate $\x7bTRE\x7d here".data).2
    "TRE".data "interpolate $\x7bONE\x7d here".data).2

theorem lookupR_isSome_iff (rs : List (Name × rule)) (n : Name) :
    (lookupR rs n).isSome = true ↔ n ∈ rs.map (·.1) := by
  induction rs with
  | nil => simp [lookupR]
  | cons p rest ih =>
    by_cases h : p.1 = n
    · simp [lookupR, h]
    · simp [lookupR, h, ih, Ne.symm h]

theorem lookupR_mem {rs : List (Name × rule)} {n : Name} {r : rule}
    (h : lookupR rs n = some r) : (n, r) ∈ rs := by
  induction rs with
  | nil => simp [lookupR] at h
  | cons p rest ih =>
    by_cases hp : p.1 = n
    · simp only [lookupR, if_pos hp] at h
      cases h
      cases p
      subst hp
      exact List.mem_cons_self _ _
    · simp only [lookupR, if_neg hp] at h
      exact List.mem_cons_of_mem _ (ih h)

theorem assoc_unique {rs : List (Name × rule)} {a : Name} {r r2 : rule}
    (hk : (rs.map (·.1)).Nodup) (h1 : (a, r) ∈ rs) (h2 : (a, r2) ∈ rs) : r = r2 := by
  induction rs with
  | nil => simp at h1
  | cons p rest ih =>
    simp only [List.map_cons, List.nodup_cons] at hk
    rcases List.mem_cons.1 h1 with h1 | h1 <;> rcases List.mem_cons.1 h2 with h2 | h2
    · rw [← h1] at h2
      exact congrArg Prod.snd h2.symm
    · exfalso
      apply hk.1
      have : a = p.1 := by rw [← h1]
      exact this ▸ List.mem_map.2 ⟨(a, r2), h2, rfl⟩
    · exfalso
      apply hk.1
      have : a = p.1 := by rw [← h2]
      exact this ▸ List.mem_map.2 ⟨(a, r), h1, rfl⟩
    · exact ih hk.2 h1 h2

theorem posOf_append_left {a : Name} {l : List Name} (l2 : List Name) (h : a ∈ l) :
    posOf (l ++ l2) a = posOf l a := by
  induction l with
  | nil => simp at h
  | cons c rest ih =>
    by_cases hc : c = a
    · simp [posOf, hc]
    · rcases List.mem_cons.1 h with h | h
      · exact absurd h.symm hc
      · simp [posOf, hc, ih h]

theorem posOf_append_right {a : Name} {l : List Name} (l2 : List Name) (h : a ∉ l) :
    posOf (l ++ l2) a = l.length + posOf l2 a := by
  induction l with
  | nil => simp
  | cons c rest ih =>
    have hc : c ≠ a := fun hca => h (hca ▸ List.mem_cons_self c rest)
    have hr : a ∉ rest := fun ha => h (List.mem_cons_of_mem _ ha)
    simp [posOf, hc, ih hr]
    omega

theorem posOf_lt_length {a : Name} {l : List Name} (h : a ∈ l) :
    posOf l a < l.length := by
  induction l with
  | nil => simp at h
  | cons c rest ih =>
    by_cases hc : c = a
    · simp [posOf, hc]
    · rcases List.mem_cons.1 h with h | h
      · exact absurd h.symm hc
      · simp only [posOf, if_neg hc, List.length_cons]
        exact Nat.succ_lt_succ (ih h)

theorem filter_length_lt {α : Type} {p : α → Bool} {l : List α} {x : α}
    (hx : x ∈ l) (hpx : p x = false) : (l.filter p).length < l.length := by
  induction l with
  | nil => simp at hx
  | cons c rest ih =>
    rcases List.mem_cons.1 hx with h | h
    · subst h
      rw [List.filter_cons, hpx]
      exact Nat.lt_succ_of_le (List.length_filter_le p rest)
    · by_cases hc : p c
      · simp only [List.filter_cons, hc, List.length_cons]
        exact Nat.succ_lt_succ (ih h)
      · rw [List.filter_cons]
        simp only [hc]
        exact Nat.lt_succ_of_lt (ih h)

theorem mem_nodesWithoutLinks {dag : List (Name × List Name)} {a : Name} :
    a ∈ nodesWithoutLinks dag ↔ ∃ p, p ∈ dag ∧ p.2 = [] ∧ p.1 = a := by
  simp only [nodesWithoutLinks, List.mem_map, List.mem_filter, List.isEmpty_iff]
  constructor
  · rintro ⟨p, ⟨hp, he⟩, ha⟩
    exact ⟨p, hp, he, ha⟩
  · rintro ⟨p, hp, he, ha⟩
    exact ⟨p, ⟨hp, he⟩, ha⟩

theorem nodesWithoutLinks_subset {dag : List (Name × List Name)} {a : Name}
    (h : a ∈ nodesWithoutLinks dag) : a ∈ dag.map (·.1) := by
  rcases mem_nodesWithoutLinks.1 h with ⟨p, hp, _, ha⟩
  exact List.mem_map.2 ⟨p, hp, ha⟩

theorem keys_of_shrunk (dag : List (Name × List Name)) (q : (Name × List Name) → Bool)
    (f : (Name × List Name) → List Name) :
    ((dag.filter q).map (fun p => (p.1, f p))).map (·.1) = (dag.filter q).map (·.1) := by
  simp [List.map_map, Function.comp]

theorem step_perm {dag : List (Name × List Name)} (hk : (dag.map (·.1)).Nodup) :
    (nodesWithoutLinks dag ++
      ((dag.filter (fun p => !(decide (p.1 ∈ nodesWithoutLinks dag)))).map
        (fun p => (p.1, p.2.filter (fun l => !(decide (l ∈ nodesWithoutLinks dag)))))).map (·.1)).Perm
      (dag.map (·.1)) := by
  set next := nodesWithoutLinks dag with hnext
  rw [keys_of_shrunk]
  have hsub1 : (nodesWithoutLinks dag).Sublist (dag.map (·.1)) :=
    List.Sublist.map _ (List.filter_sublist dag)
  have hsub2 : ((dag.filter (fun p => !(decide (p.1 ∈ next)))).map (·.1)).Sublist (dag.map (·.1)) :=
    List.Sublist.map _ (List.filter_sublist dag)
  have hnd1 : next.Nodup := hk.sublist hsub1
  have hnd2 : ((dag.filter (fun p => !(decide (p.1 ∈ next)))).map (·.1)).Nodup := hk.sublist hsub2
  have hdisj : next.Disjoint ((dag.filter (fun p => !(decide (p.1 ∈ next)))).map (·.1)) := by
    intro x hx1 hx2
    rcases List.mem_map.1 hx2 with ⟨p, hp, hpx⟩
    rcases List.mem_filter.1 hp with ⟨_, hq⟩
    rw [hpx] at hq
    simp only [Bool.not_eq_true', decide_eq_false_iff_not] at hq
    exact hq hx1
  refine (List.perm_ext_iff_of_nodup (List.nodup_append.2 ⟨hnd1, hnd2, hdisj⟩) hk).2 ?_
  intro x
  simp only [List.mem_append]
  constructor
  · rintro (hx | hx)
    · exact nodesWithoutLinks_subset hx
    · exact hsub2.subset hx
  · intro hx
    by_cases hxn : x ∈ next
    · exact Or.inl hxn
    · rcases List.mem_map.1 hx with ⟨p, hp, hpx⟩
      refine Or.inr (List.mem_map.2 ⟨p, List.mem_filter.2 ⟨hp, ?_⟩, hpx⟩)
      simp only [Bool.not_eq_true', decide_eq_false_iff_not]
      rw [hpx]
      exact hxn

theorem edge_mem_keys {g : Grammar} {a b : Name} (h : edge g a b) : a ∈ keys g := by
  rcases h with ⟨p, hp, hpa, _⟩
  exact List.mem_map.2 ⟨p, hp, hpa⟩

theorem transGen_pos_decreasing (g : Grammar) (acc : List Name)
    (hinv3 : ∀ a b, edge g a b → a ∈ acc → b ∈ acc ∧ posOf acc b < posOf acc a) :
    ∀ a b, Relation.TransGen (edge g) a b → a ∈ acc → b ∈ acc ∧ posOf acc b < posOf acc a := by
  intro a b h ha
  induction h with
  | single h1 => exact hinv3 _ _ h1 ha
  | tail _ h2 ih =>
    obtain ⟨hb, hlt⟩ := ih
    obtain ⟨hc, hlt2⟩ := hinv3 _ _ h2 hb
    exact ⟨hc, hlt2.trans hlt⟩

theorem transGen_start_mem {g : Grammar} {a b : Name}
    (h : Relation.TransGen (edge g) a b) : a ∈ keys g := by
  induction h with
  | single h1 => exact edge_mem_keys h1
  | tail _ _ ih => exact ih

theorem topoLoop_main (g : Grammar) (hk : (keys g).Nodup) :
    ∀ fuel (dag : List (Name × List Name)) (acc : List Name),
      dag.length < fuel →
      (acc ++ dag.map (·.1)).Perm (keys g) →
      (∀ p ∈ dag, ∃ r, (p.1, r) ∈ g.rules ∧ p.2 ⊆ r.subrules ∧
        ∀ b ∈ r.subrules, b ∈ acc ∨ b ∈ p.2) →
      (∀ a b, edge g a b → a ∈ acc → b ∈ acc ∧ posOf acc b < posOf acc a) →
      (∀ s, topoLoop fuel dag acc = .ok s →
        s.Perm (keys g) ∧ ∀ a b, edge g a b → b ∈ s ∧ a ∈ s ∧ posOf s b < posOf s a)
      ∧ (∀ rem, topoLoop fuel dag acc = .error rem →
        rem ≠ [] ∧ rem ⊆ keys g ∧ ∀ n, Relation.TransGen (edge g) n n → n ∈ rem) := by
  intro fuel
  induction fuel with
  | zero => intro dag acc hlen; exact absurd hlen (Nat.not_lt_zero _)
  | succ fuel ih =>
    intro dag acc hlen hperm hinv2 hinv3
    by_cases hdag : dag = []
    · subst hdag
      constructor
      · intro s hs
        simp only [topoLoop, List.isEmpty_nil, if_true] at hs
        cases hs
        simp only [List.map_nil, List.append_nil] at hperm
        refine ⟨hperm, ?_⟩
        intro a b he
        have ha : a ∈ acc := (hperm.mem_iff).2 (edge_mem_keys he)
        obtain ⟨hb, hlt⟩ := hinv3 a b he ha
        exact ⟨hb, ha, hlt⟩
      · intro rem hrem
        simp only [topoLoop, List.isEmpty_nil, if_true] at hrem
        exact Except.noConfusion hrem
    · have hdagne : dag.isEmpty = false := by
        cases dag with
        | nil => exact absurd rfl hdag
        | cons a l => rfl
      have hnodall : (acc ++ dag.map (·.1)).Nodup := hperm.symm.nodup hk
      obtain ⟨hndacc, hnddag, hdisj⟩ := List.nodup_append.1 hnodall
      by_cases hnext : nodesWithoutLinks dag = []
      · have hnexte : (nodesWithoutLinks dag).isEmpty = true := by rw [hnext]; rfl
        have hred : topoLoop (fuel + 1) dag acc = .error (dag.map (·.1)) := by
          simp only [topoLoop, hdagne, hnexte, Bool.false_eq_true, if_false, if_true]
        constructor
        · intro s hs
          rw [hred] at hs
          exact Except.noConfusion hs
        · intro rem hrem
          rw [hred] at hrem
          cases hrem
          refine ⟨?_, ?_, ?_⟩
          · intro hmapnil
            exact hdag (List.map_eq_nil_iff.1 hmapnil)
          · intro x hx
            exact (hperm.mem_iff).1 (List.mem_append_right acc hx)
          · intro n hn
            have hnk : n ∈ keys g := transGen_start_mem hn
            rcases List.mem_append.1 ((hperm.mem_iff).2 hnk) with hacc | hdagk
            · have := (transGen_pos_decreasing g acc hinv3 n n hn hacc).2
              omega
            · exact hdagk
      · have hnexte : (nodesWithoutLinks dag).isEmpty = false := by
          cases hne : nodesWithoutLinks dag with
          | nil => exact absurd hne hnext
          | cons a l => rfl
        have hred : topoLoop (fuel + 1) dag acc =
            topoLoop fuel
              ((dag.filter (fun p => !(decide (p.1 ∈ nodesWithoutLinks dag)))).map
                (fun p => (p.1, p.2.filter (fun l => !(decide (l ∈ nodesWithoutLinks dag))))))
              (acc ++ nodesWithoutLinks dag) := by
          simp only [topoLoop, hdagne, hnexte, Bool.false_eq_true, if_false]
        obtain ⟨a0, ha0⟩ : ∃ a, a ∈ nodesWithoutLinks dag := by
          cases hne : nodesWithoutLinks dag with
          | nil => exact absurd hne hnext
          | cons a l => exact ⟨a, hne ▸ List.mem_cons_self a l⟩
        obtain ⟨p0, hp0mem, hp0e, hp0a⟩ := mem_nodesWithoutLinks.1 ha0
        have hfalse : (fun p => !(decide (p.1 ∈ nodesWithoutLinks dag))) p0 = false := by
          simp [hp0a, ha0]
        have hlen2 :
            ((dag.filter (fun p => !(decide (p.1 ∈ nodesWithoutLinks dag)))).map
              (fun p => (p.1, p.2.filter (fun l => !(decide (l ∈ nodesWithoutLinks dag)))))).length
              < fuel := by
          have h1 := @filter_length_lt _ (fun p => !(decide (p.1 ∈ nodesWithoutLinks dag)))
            dag p0 hp0mem hfalse
          rw [List.length_map]
          omega
        have hperm2 : ((acc ++ nodesWithoutLinks dag) ++
            ((dag.filter (fun p => !(decide (p.1 ∈ nodesWithoutLinks dag)))).map
              (fun p => (p.1, p.2.filter (fun l => !(decide (l ∈ nodesWithoutLinks dag)))))).map (·.1)).Perm
            (keys g) := by
          rw [List.append_assoc]
          exact ((step_perm hnddag).append_left acc).trans hperm
        have hinv2' : ∀ p ∈ (dag.filter (fun p => !(decide (p.1 ∈ nodesWithoutLinks dag)))).map
            (fun p => (p.1, p.2.filter (fun l => !(decide (l ∈ nodesWithoutLinks dag))))),
            ∃ r, (p.1, r) ∈ g.rules ∧ p.2 ⊆ r.subrules ∧
              ∀ b ∈ r.subrules, b ∈ acc ++ nodesWithoutLinks dag ∨ b ∈ p.2 := by
          intro p hp
          rcases List.mem_map.1 hp with ⟨q, hq, hpq⟩
          rcases List.mem_filter.1 hq with ⟨hqdag, _⟩
          obtain ⟨r, hrmem, hsub, hcov⟩ := hinv2 q hqdag
          subst hpq
          refine ⟨r, hrmem, ?_, ?_⟩
          · intro b hb
            exact hsub (List.mem_of_mem_filter hb)
          · intro b hb
            rcases hcov b hb with hbacc | hbq
            · exact Or.inl (List.mem_append_left _ hbacc)
            · by_cases hbn : b ∈ nodesWithoutLinks dag
              · exact Or.inl (List.mem_append_right acc hbn)
              · exact Or.inr (List.mem_filter.2 ⟨hbq, by simp [hbn]⟩)
        have hnsub : ∀ x ∈ nodesWithoutLinks dag, x ∈ dag.map (·.1) :=
          fun x hx => nodesWithoutLinks_subset hx
        have hinv3' : ∀ a b, edge g a b → a ∈ acc ++ nodesWithoutLinks dag →
            b ∈ acc ++ nodesWithoutLinks dag ∧
            posOf (acc ++ nodesWithoutLinks dag) b < posOf (acc ++ nodesWithoutLinks dag) a := by
          intro a b he ha
          rcases List.mem_append.1 ha with haacc | hanext
          · obtain ⟨hb, hlt⟩ := hinv3 a b he haacc
            refine ⟨List.mem_append_left _ hb, ?_⟩
            rw [posOf_append_left _ haacc, posOf_append_left _ hb]
            exact hlt
          · obtain ⟨q, hqdag, hq2, hq1⟩ := mem_nodesWithoutLinks.1 hanext
            obtain ⟨r, hrmem, hsub, hcov⟩ := hinv2 q hqdag
            rcases he with ⟨p, hpmem, hpa, hbsub⟩
            have hrules : (a, p.2) ∈ g.rules := by
              rw [← hpa]
              exact hpmem
            have hreq : r = p.2 := assoc_unique hk (hq1 ▸ hrmem) hrules
            have hbacc : b ∈ acc := by
              rcases hcov b (by rw [hreq]; exact hbsub) with h | h
              · exact h
              · rw [hq2] at h
                exact absurd h (List.not_mem_nil b)
            have hanacc : a ∉ acc := fun hc => hdisj hc (hnsub a hanext)
            refine ⟨List.mem_append_left _ hbacc, ?_⟩
            rw [posOf_append_left _ hbacc, posOf_append_right _ hanacc]
            have := posOf_lt_length hbacc
            omega
        have hmain := ih _ _ hlen2 hperm2 hinv2' hinv3'
        constructor
        · intro s hs
          rw [hred] at hs
          exact hmain.1 s hs
        · intro rem hrem
          rw [hred] at hrem
          exact hmain.2 rem hrem

theorem init_keys (g : Grammar) :
    ((g.rules.map (fun p => (p.1, p.2.subrules))).map (·.1)) = keys g := by
  simp [keys, List.map_map, Function.comp]

theorem toposort_ok_props {g : Grammar} (hk : (keys g).Nodup) {s : List Name}
    (h : toposort g = .ok s) :
    s.Perm (keys g) ∧ ∀ a b, edge g a b → b ∈ s ∧ a ∈ s ∧ posOf s b < posOf s a := by
  rw [toposort] at h
  refine (topoLoop_main g hk (g.rules.length + 1)
    (g.rules.map (fun p => (p.1, p.2.subrules))) [] ?_ ?_ ?_ ?_).1 s h
  · rw [List.length_map]
    omega
  · rw [List.nil_append, init_keys]
  · intro p hp
    rcases List.mem_map.1 hp with ⟨q, hq, hpq⟩
    subst hpq
    exact ⟨q.2, hq, fun b hb => hb, fun b hb => Or.inr hb⟩
  · intro a b _ ha
    exact absurd ha (List.not_mem_nil a)

theorem toposort_error_props {g : Grammar} (hk : (keys g).Nodup) {rem : List Name}
    (h : toposort g = .error rem) :
    rem ≠ [] ∧ rem ⊆ keys g ∧ ∀ n, Relation.TransGen (edge g) n n → n ∈ rem := by
  rw [toposort] at h
  refine (topoLoop_main g hk (g.rules.length + 1)
    (g.rules.map (fun p => (p.1, p.2.subrules))) [] ?_ ?_ ?_ ?_).2 rem h
  · rw [List.length_map]
    omega
  · rw [List.nil_append, init_keys]
  · intro p hp
    rcases List.mem_map.1 hp with ⟨q, hq, hpq⟩
    subst hpq
    exact ⟨q.2, hq, fun b hb => hb, fun b hb => Or.inr hb⟩
  · intro a b _ ha
    exact absurd ha (List.not_mem_nil a)

theorem acyclic_of_toposort_ok {g : Grammar} (hk : (keys g).Nodup) {s : List Name}
    (h : toposort g = .ok s) : Acyclic g := by
  obtain ⟨_, horder⟩ := toposort_ok_props hk h
  intro n hn
  have hdec : ∀ a b, Relation.TransGen (edge g) a b → posOf s b < posOf s a := by
    intro a b htg
    induction htg with
    | single h1 => exact (horder _ _ h1).2.2
    | tail _ h2 ih => exact ((horder _ _ h2).2.2).trans ih
  exact absurd (hdec n n hn) (lt_irrefl _)

theorem cycle_of_all_mem_succ (g : Grammar) (R : List Name) (hne : R ≠ [])
    (hsucc : ∀ a ∈ R, ∃ b, b ∈ R ∧ edge g a b) :
    ∃ n, Relation.TransGen (edge g) n n := by
  classical
  let F : {x // x ∈ R} → {x // x ∈ R} :=
    fun a => ⟨(hsucc a.1 a.2).choose, (hsucc a.1 a.2).choose_spec.1⟩
  have hF : ∀ a : {x // x ∈ R}, edge g a.1 (F a).1 :=
    fun a => (hsucc a.1 a.2).choose_spec.2
  let a0 : {x // x ∈ R} := ⟨R.head hne, List.head_mem hne⟩
  let f : ℕ → {x // x ∈ R} := fun k => F^[k] a0
  have hstep : ∀ k, edge g (f k).1 (f (k + 1)).1 := by
    intro k
    have : f (k + 1) = F (f k) := Function.iterate_succ_apply' F k a0
    rw [this]
    exact hF (f k)
  have hchain : ∀ i d, Relation.TransGen (edge g) (f i).1 (f (i + 1 + d)).1 := by
    intro i d
    induction d with
    | zero => exact Relation.TransGen.single (hstep i)
    | succ d ihd =>
      have : i + 1 + (d + 1) = (i + 1 + d) + 1 := by omega
      rw [this]
      exact ihd.tail (hstep (i + 1 + d))
  obtain ⟨x, hx, y, hy, hxy, hfeq⟩ :=
    Finset.exists_ne_map_eq_of_card_lt_of_maps_to
      (s := Finset.range (R.length + 1)) (t := R.toFinset)
      (by
        have := R.toFinset_card_le
        rw [Finset.card_range]
        omega)
      (fun k _ => List.mem_toFinset.2 (f k).2)
  rcases Nat.lt_or_ge x y with hlt | hge
  · refine ⟨(f x).1, ?_⟩
    have : y = x + 1 + (y - x - 1) := by omega
    have h2 := hchain x (y - x - 1)
    rw [← this] at h2
    rw [← hfeq] at h2
    exact h2
  · have hlt : y < x := by
      rcases Nat.lt_or_ge y x with h | h
      · exact h
      · omega
    refine ⟨(f y).1, ?_⟩
    have : x = y + 1 + (x - y - 1) := by omega
    have h2 := hchain y (x - y - 1)
    rw [← this] at h2
    rw [hfeq] at h2
    exact h2

theorem topoLoop_ok_of_acyclic (g : Grammar) (hacyc : Acyclic g) :
    ∀ fuel (dag : List (Name × List Name)) (acc : List Name),
      dag.length < fuel →
      (∀ p ∈ dag, ∀ b ∈ p.2, b ∈ dag.map (·.1)) →
      (∀ p ∈ dag, ∀ b ∈ p.2, edge g p.1 b) →
      ∃ s, topoLoop fuel dag acc = .ok s := by
  intro fuel
  induction fuel with
  | zero => intro dag acc hlen; exact absurd hlen (Nat.not_lt_zero _)
  | succ fuel ih =>
    intro dag acc hlen hclosed hedges
    by_cases hdag : dag = []
    · subst hdag
      exact ⟨acc, by simp [topoLoop]⟩
    · have hdagne : dag.isEmpty = false := by
        cases dag with
        | nil => exact absurd rfl hdag
        | cons a l => rfl
      by_cases hnext : nodesWithoutLinks dag = []
      · exfalso
        obtain ⟨n, hn⟩ := cycle_of_all_mem_succ g (dag.map (·.1))
          (fun hmapnil => hdag (List.map_eq_nil_iff.1 hmapnil))
          (by
            intro a ha
            rcases List.mem_map.1 ha with ⟨p, hp, hpa⟩
            have hp2 : p.2 ≠ [] := by
              intro hp2
              have : a ∈ nodesWithoutLinks dag := mem_nodesWithoutLinks.2 ⟨p, hp, hp2, hpa⟩
              rw [hnext] at this
              exact absurd this (List.not_mem_nil a)
            obtain ⟨b, hb⟩ : ∃ b, b ∈ p.2 := by
              cases hq : p.2 with
              | nil => exact absurd hq hp2
              | cons b l => exact ⟨b, hq ▸ List.mem_cons_self b l⟩
            exact ⟨b, hclosed p hp b hb, hpa ▸ hedges p hp b hb⟩)
        exact hacyc n hn
      · have hnexte : (nodesWithoutLinks dag).isEmpty = false := by
          cases hne : nodesWithoutLinks dag with
          | nil => exact absurd hne hnext
          | cons a l => rfl
        have hred : topoLoop (fuel + 1) dag acc =
            topoLoop fuel
              ((dag.filter (fun p => !(decide (p.1 ∈ nodesWithoutLinks dag)))).map
                (fun p => (p.1, p.2.filter (fun l => !(decide (l ∈ nodesWithoutLinks dag))))))
              (acc ++ nodesWithoutLinks dag) := by
          simp only [topoLoop, hdagne, hnexte, Bool.false_eq_true, if_false]
        obtain ⟨a0, ha0⟩ : ∃ a, a ∈ nodesWithoutLinks dag := by
          cases hne : nodesWithoutLinks dag with
          | nil => exact absurd hne hnext
          | cons a l => exact ⟨a, hne ▸ List.mem_cons_self a l⟩
        obtain ⟨p0, hp0mem, hp0e, hp0a⟩ := mem_nodesWithoutLinks.1 ha0
        have hfalse : (fun p => !(decide (p.1 ∈ nodesWithoutLinks dag))) p0 = false := by
          simp [hp0a, ha0]
        have hlen2 :
            ((dag.filter (fun p => !(decide (p.1 ∈ nodesWithoutLinks dag)))).map
              (fun p => (p.1, p.2.filter (fun l => !(decide (l ∈ nodesWithoutLinks dag)))))).length
              < fuel := by
          have h1 := @filter_length_lt _ (fun p => !(decide (p.1 ∈ nodesWithoutLinks dag)))
            dag p0 hp0mem hfalse
          rw [List.length_map]
          omega
        have hclosed' : ∀ p ∈ (dag.filter (fun p => !(decide (p.1 ∈ nodesWithoutLinks dag)))).map
            (fun p => (p.1, p.2.filter (fun l => !(decide (l ∈ nodesWithoutLinks dag))))),
            ∀ b ∈ p.2,
            b ∈ ((dag.filter (fun p => !(decide (p.1 ∈ nodesWithoutLinks dag)))).map
              (fun p => (p.1, p.2.filter (fun l => !(decide (l ∈ nodesWithoutLinks dag)))))).map (·.1) := by
          intro p hp b hb
          rcases List.mem_map.1 hp with ⟨q, hq, hpq⟩
          rcases List.mem_filter.1 hq with ⟨hqdag, _⟩
          subst hpq
          rcases List.mem_filter.1 hb with ⟨hbq, hbn⟩
          simp only [Bool.not_eq_true', decide_eq_false_iff_not] at hbn
          have hbdag : b ∈ dag.map (·.1) := hclosed q hqdag b hbq
          rcases List.mem_map.1 hbdag with ⟨pb, hpb, hpbb⟩
          rw [keys_of_shrunk]
          refine List.mem_map.2 ⟨pb, List.mem_filter.2 ⟨hpb, ?_⟩, hpbb⟩
          simp only [Bool.not_eq_true', decide_eq_false_iff_not]
          rw [hpbb]
          exact hbn
        have hedges' : ∀ p ∈ (dag.filter (fun p => !(decide (p.1 ∈ nodesWithoutLinks dag)))).map
            (fun p => (p.1, p.2.filter (fun l => !(decide (l ∈ nodesWithoutLinks dag))))),
            ∀ b ∈ p.2, edge g p.1 b := by
          intro p hp b hb
          rcases List.mem_map.1 hp with ⟨q, hq, hpq⟩
          rcases List.mem_filter.1 hq with ⟨hqdag, _⟩
          subst hpq
          exact hedges q hqdag b (List.mem_of_mem_filter hb)
        obtain ⟨s, hs⟩ := ih _ (acc ++ nodesWithoutLinks dag) hlen2 hclosed' hedges'
        exact ⟨s, by rw [hred]; exact hs⟩

theorem toposort_ok_of_acyclic {g : Grammar} (hcl : Closed g) (hacyc : Acyclic g) :
    ∃ s, toposort g = .ok s := by
  rw [toposort]
  refine topoLoop_ok_of_acyclic g hacyc (g.rules.length + 1)
    (g.rules.map (fun p => (p.1, p.2.subrules))) [] ?_ ?_ ?_
  · rw [List.length_map]
    omega
  · intro p hp b hb
    rcases List.mem_map.1 hp with ⟨q, hq, hpq⟩
    subst hpq
    rw [init_keys]
    exact hcl q hq b hb
  · intro p hp b hb
    rcases List.mem_map.1 hp with ⟨q, hq, hpq⟩
    subst hpq
    exact ⟨q, hq, rfl, hb⟩

theorem findMissing_eq_none_iff {g : Grammar} : findMissing g = none ↔ Closed g := by
  rw [findMissing, List.findSome?_eq_none_iff]
  constructor
  · intro h p hp sn hsn
    have h1 := h p hp
    rw [Option.map_eq_none', List.find?_eq_none] at h1
    have h2 := h1 sn hsn
    simp only [Bool.not_eq_true', Bool.not_eq_false] at h2
    exact (lookupR_isSome_iff g.rules sn).1 h2
  · intro h p hp
    rw [Option.map_eq_none', List.find?_eq_none]
    intro sn hsn
    simp only [Bool.not_eq_true', Bool.not_eq_false]
    exact (lookupR_isSome_iff g.rules sn).2 (h p hp sn hsn)

theorem findMissing_isSome_of_not_closed {g : Grammar} (h : ¬ Closed g) :
    ∃ rn sn, findMissing g = some (rn, sn) := by
  cases hm : findMissing g with
  | none => exact absurd (findMissing_eq_none_iff.1 hm) h
  | some v =>
    obtain ⟨a, b⟩ := v
    exact ⟨a, b, rfl⟩

theorem compileWalk_err_shape {e : GErr} :
    ∀ (l : List Name) (g g2 : Grammar), compileWalk g l = .err e g2 →
      (∃ gn rn, e = .templateErr gn rn ∨ e = .regexpErr gn rn) ∧ g2.compiled = g.compiled := by
  intro l
  induction l with
  | nil =>
    intro g g2 h
    simp only [compileWalk] at h
    exact Outcome.noConfusion h
  | cons n rest ih =>
    intro g g2 h
    rw [compileWalk] at h
    split at h
    · exact Outcome.noConfusion h
    · split at h
      · split at h
        · exact Outcome.noConfusion h
        · injection h with h1 h2
          subst h1
          subst h2
          exact ⟨⟨g.name, n, Or.inl rfl⟩, rfl⟩
        · injection h with h1 h2
          subst h1
          subst h2
          exact ⟨⟨g.name, n, Or.inr rfl⟩, rfl⟩
        · obtain ⟨hshape, hcomp⟩ := ih _ _ h
          exact ⟨hshape, hcomp⟩
      · exact Outcome.noConfusion h

theorem Compile_missing {g : Grammar} (hc : g.compiled = false) (hncl : ¬ Closed g) :
    ∃ rn sn, Compile g = .err (.missingSubrule g.name rn sn) g := by
  obtain ⟨rn, sn, hm⟩ := findMissing_isSome_of_not_closed hncl
  refine ⟨rn, sn, ?_⟩
  rw [Compile, hc]
  simp only [Bool.false_eq_true, if_false, hm]

theorem Compile_cyclic {g : Grammar} (hc : g.compiled = false) (hk : (keys g).Nodup)
    (hcl : Closed g) (hcyc : ∃ n, Relation.TransGen (edge g) n n) :
    ∃ rem, Compile g = .err (.cyclicDependency g.name rem) g ∧
      rem ≠ [] ∧ rem ⊆ keys g ∧ ∀ n, Relation.TransGen (edge g) n n → n ∈ rem := by
  have hm : findMissing g = none := findMissing_eq_none_iff.2 hcl
  cases ht : toposort g with
  | ok s =>
    obtain ⟨n, hn⟩ := hcyc
    exact absurd hn (acyclic_of_toposort_ok hk ht n)
  | error rem =>
    refine ⟨rem, ?_, toposort_error_props hk ht⟩
    rw [Compile, hc]
    simp only [Bool.false_eq_true, if_false, hm, ht]

theorem Compile_no_cyclic {g : Grammar}
    (hcl : Closed g) (hacyc : Acyclic g) :
    ∀ gn rem g2, Compile g ≠ .err (.cyclicDependency gn rem) g2 := by
  intro gn rem g2 h
  rw [Compile] at h
  by_cases hc : g.compiled
  · rw [if_pos hc] at h
    injection h with h1 _
    exact GErr.noConfusion h1
  · rw [if_neg hc] at h
    have hm : findMissing g = none := findMissing_eq_none_iff.2 hcl
    obtain ⟨s, ht⟩ := toposort_ok_of_acyclic hcl hacyc
    rw [hm, ht] at h
    obtain ⟨⟨gn2, rn2, hsh⟩, _⟩ := compileWalk_err_shape s g g2 h
    rcases hsh with hsh | hsh <;> exact GErr.noConfusion hsh

theorem Compile_err_not_finalized {g : Grammar} {e : GErr} {g2 : Grammar}
    (hc : g.compiled = false) (h : Compile g = .err e g2) : g2.compiled = false := by
  rw [Compile, hc] at h
  simp only [Bool.false_eq_true, if_false] at h
  cases hm : findMissing g with
  | some v =>
    rw [hm] at h
    cases v
    injection h with _ h2
    rw [← h2]
    exact hc
  | none =>
    rw [hm] at h
    cases ht : toposort g with
    | error rem =>
      rw [ht] at h
      injection h with _ h2
      rw [← h2]
      exact hc
    | ok s =>
      rw [ht] at h
      rw [(compileWalk_err_shape s g g2 h).2]
      exact hc

theorem noDoubleSlash_tail {c : Char} {rest : List Char}
    (h : noDoubleSlash (c :: rest) = true) : noDoubleSlash rest = true := by
  rw [noDoubleSlash] at h
  split at h
  · exact Bool.noConfusion h
  · exact h

theorem stripComments_id :
    ∀ fuel (s : List Char), s.length < fuel → noDoubleSlash s = true →
      stripComments fuel s = s := by
  intro fuel
  induction fuel with
  | zero => intro s hlen; exact absurd hlen (Nat.not_lt_zero _)
  | succ fuel ih =>
    intro s hlen hnds
    cases s with
    | nil => rfl
    | cons c rest =>
      rw [stripComments]
      by_cases hc : c = '/' ∧ rest.head? = some '/'
      · exfalso
        rw [noDoubleSlash, if_pos hc] at hnds
        exact Bool.noConfusion hnds
      · rw [if_neg hc]
        rw [ih rest (by simp only [List.length_cons] at hlen; omega) (noDoubleSlash_tail hnds)]

theorem filter_self_idem {α : Type} (p : α → Bool) (l : List α) :
    (l.filter p).filter p = l.filter p := by
  induction l with
  | nil => rfl
  | cons a rest ih =>
    by_cases h : p a
    · simp [List.filter_cons, h, ih]
    · simp [List.filter_cons, h, ih]

theorem lookupN_eq_find (rp : List (Name × Name)) (n : Name) :
    lookupN rp n = (rp.find? (fun p => decide (p.1 = n))).map (·.2) := by
  induction rp with
  | nil => rfl
  | cons p rest ih =>
    by_cases h : p.1 = n
    · simp [lookupN, List.find?_cons, h]
    · simp [lookupN, List.find?_cons, h, ih]

theorem rbrace_not_word : isWordChar rbrace = false := by decide

theorem valid_all_word {n : Name} (h : isValidRuleName n = true) : n.all isWordChar = true := by
  cases n with
  | nil => exact Bool.noConfusion h
  | cons c rest =>
    rw [isValidRuleName] at h
    simp only [Bool.and_eq_true, Bool.or_eq_true, decide_eq_true_eq] at h
    rw [List.all_cons]
    simp only [Bool.and_eq_true]
    refine ⟨?_, h.2⟩
    rw [isWordChar]
    rcases h.1 with h1 | h1
    · simp [Char.isAlphanum, h1]
    · simp [h1]

theorem pre_ident_iff :
    ∀ (nm t : List Char), nm.all isWordChar = true →
      (t.dropWhile isWordChar).head? = some rbrace →
      (isPre (nm ++ [rbrace]) t = true ↔ nm = t.takeWhile isWordChar) := by
  intro nm
  induction nm with
  | nil =>
    intro t _ hr1
    cases t with
    | nil => simp at hr1
    | cons z zrest =>
      by_cases hz : isWordChar z = true
      · rw [List.takeWhile_cons_of_pos hz]
        have hzr : z ≠ rbrace := by
          intro hzz
          rw [hzz, rbrace_not_word] at hz
          exact Bool.noConfusion hz
        constructor
        · intro hp
          rw [List.nil_append, isPre] at hp
          simp only [Bool.and_eq_true, decide_eq_true_eq] at hp
          exact absurd hp.1.symm hzr
        · intro he
          exact absurd he (by simp)
      · rw [List.dropWhile_cons_of_neg hz] at hr1
        simp only [List.head?_cons, Option.some.injEq] at hr1
        rw [List.takeWhile_cons_of_neg hz]
        constructor
        · intro _
          rfl
        · intro _
          rw [List.nil_append, isPre]
          simp [hr1, isPre]
  | cons x nmrest ih =>
    intro t hall hr1
    simp only [List.all_cons, Bool.and_eq_true] at hall
    cases t with
    | nil => simp at hr1
    | cons y trest =>
      by_cases hy : isWordChar y = true
      · rw [List.dropWhile_cons_of_pos hy] at hr1
        rw [List.takeWhile_cons_of_pos hy]
        rw [List.cons_append, isPre]
        simp only [Bool.and_eq_true, decide_eq_true_eq]
        constructor
        · rintro ⟨hxy, hp⟩
          rw [hxy, (ih trest hall.2 hr1).1 hp]
        · intro he
          injection he with h1 h2
          exact ⟨h1, (ih trest hall.2 hr1).2 h2⟩
      · rw [List.dropWhile_cons_of_neg hy] at hr1
        simp only [List.head?_cons, Option.some.injEq] at hr1
        rw [List.takeWhile_cons_of_neg hy]
        constructor
        · intro hp
          rw [List.cons_append, isPre] at hp
          simp only [Bool.and_eq_true, decide_eq_true_eq] at hp
          exfalso
          have hx : isWordChar x = true := hall.1
          rw [hp.1, hr1, rbrace_not_word] at hx
          exact Bool.noConfusion hx
        · intro he
          exact absurd he (by simp)

theorem find_ph {rp : List (Name × Name)} (hvalid : ∀ p ∈ rp, isValidRuleName p.1 = true)
    {t : List Char} (hr1 : (t.dropWhile isWordChar).head? = some rbrace) :
    rp.find? (fun p => isPre (phTok p.1) ('$' :: lbrace :: t)) =
      rp.find? (fun p => decide (p.1 = t.takeWhile isWordChar)) := by
  induction rp with
  | nil => rfl
  | cons p rest ih =>
    have hword : p.1.all isWordChar = true :=
      valid_all_word (hvalid p (List.mem_cons_self p rest))
    have heq : (isPre (phTok p.1) ('$' :: lbrace :: t)) =
        decide (p.1 = t.takeWhile isWordChar) := by
      have h1 : isPre (phTok p.1) ('$' :: lbrace :: t) = isPre (p.1 ++ [rbrace]) t := by
        simp [phTok, isPre]
      rw [h1]
      by_cases h2 : p.1 = t.takeWhile isWordChar
      · have h4 : isPre (p.1 ++ [rbrace]) t = true := (pre_ident_iff p.1 t hword hr1).2 h2
        rw [h4]
        simp [h2]
      · have h3 : isPre (p.1 ++ [rbrace]) t = false := by
          cases hb : isPre (p.1 ++ [rbrace]) t
          · rfl
          · exact absurd ((pre_ident_iff p.1 t hword hr1).1 hb) h2
        simp [h3, h2]
    rw [List.find?_cons, List.find?_cons, heq]
    by_cases hc : p.1 = t.takeWhile isWordChar
    · simp [hc]
    · rw [decide_eq_false hc]
      exact ih (fun q hq => hvalid q (List.mem_cons_of_mem p hq))

theorem interp_ph (fuel : ℕ) (rp : List (Name × Name)) (t : List Char) :
    interp (fuel + 1) rp ('$' :: lbrace :: t) =
      (if (t.dropWhile isWordChar).head? = some rbrace then
        if (t.takeWhile isWordChar).isEmpty then none
        else if t.takeWhile isWordChar = "true".data ∨ t.takeWhile isWordChar = "false".data then
          (interp fuel rp (t.dropWhile isWordChar).tail).map
            (fun x => t.takeWhile isWordChar ++ x)
        else if t.takeWhile isWordChar ∈ tmplKeywords then none
        else
          match lookupN rp (t.takeWhile isWordChar) with
          | some v => (interp fuel rp (t.dropWhile isWordChar).tail).map (fun x => v ++ x)
          | none => none
      else none) := by
  rw [interp]
  rw [if_pos (show ('$' : Char) = '$' ∧ (lbrace :: t).head? = some lbrace from ⟨rfl, rfl⟩)]
  rfl

theorem wfT_ph (fuel : ℕ) (ks : List Name) (t : List Char) :
    wfT (fuel + 1) ks ('$' :: lbrace :: t) =
      (if (t.dropWhile isWordChar).head? = some rbrace then
        (!(t.takeWhile isWordChar).isEmpty) && decide (t.takeWhile isWordChar ∈ ks) &&
          wfT fuel ks (t.dropWhile isWordChar).tail
      else false) := by
  rw [wfT]
  rw [if_pos (show ('$' : Char) = '$' ∧ (lbrace :: t).head? = some lbrace from ⟨rfl, rfl⟩)]
  rfl

theorem interp_nph (fuel : ℕ) (rp : List (Name × Name)) (c : Char) (s1 : List Char)
    (h : ¬(c = '$' ∧ s1.head? = some lbrace)) :
    interp (fuel + 1) rp (c :: s1) = (interp fuel rp s1).map (fun t => c :: t) := by
  rw [interp, if_neg h]

theorem wfT_nph (fuel : ℕ) (ks : List Name) (c : Char) (s1 : List Char)
    (h : ¬(c = '$' ∧ s1.head? = some lbrace)) :
    wfT (fuel + 1) ks (c :: s1) = wfT fuel ks s1 := by
  rw [wfT, if_neg h]

theorem find_ph_none {rp : List (Name × Name)} (c : Char) (s1 : List Char)
    (h : ¬(c = '$' ∧ s1.head? = some lbrace)) :
    rp.find? (fun p => isPre (phTok p.1) (c :: s1)) = none := by
  rw [List.find?_eq_none]
  intro p _ hp
  apply h
  rw [phTok, isPre] at hp
  simp only [Bool.and_eq_true, decide_eq_true_eq] at hp
  refine ⟨hp.1.symm, ?_⟩
  cases s1 with
  | nil => exact Bool.noConfusion hp.2
  | cons d t =>
    rw [isPre] at hp
    have := hp.2
    simp only [Bool.and_eq_true, decide_eq_true_eq] at this
    rw [List.head?_cons, ← this.1]

theorem drop_tk (t : List Char) :
    List.drop ((t.takeWhile isWordChar).length + 1) t = (t.dropWhile isWordChar).tail := by
  induction t with
  | nil => simp
  | cons c rest ih =>
    by_cases hc : isWordChar c = true
    · rw [List.takeWhile_cons_of_pos hc, List.dropWhile_cons_of_pos hc]
      simp only [List.length_cons]
      rw [List.drop_succ_cons]
      exact ih
    · rw [List.takeWhile_cons_of_neg hc, List.dropWhile_cons_of_neg hc]
      simp

theorem interp_eq_specInterpolate :
    ∀ fuel (rp : List (Name × Name)) (s : List Char), s.length < fuel →
      (∀ p ∈ rp, isValidRuleName p.1 = true) →
      (∀ p ∈ rp, p.1 ∉ tmplKeywords ∧ p.1 ≠ "true".data ∧ p.1 ≠ "false".data) →
      wfT fuel (rp.map (·.1)) s = true →
      interp fuel rp s = some (specInterpolate fuel rp s) := by
  intro fuel
  induction fuel with
  | zero => intro rp s hlen; exact absurd hlen (Nat.not_lt_zero _)
  | succ fuel ih =>
    intro rp s hlen hvalid hkw hwf
    cases s with
    | nil => rfl
    | cons c s1 =>
      by_cases hph : c = '$' ∧ s1.head? = some lbrace
      · obtain ⟨hc, hhead⟩ := hph
        subst hc
        cases s1 with
        | nil => exact Option.noConfusion hhead
        | cons d t =>
          have hd : d = lbrace := by
            rw [List.head?_cons] at hhead
            exact Option.some.inj hhead
          subst hd
          rw [wfT_ph] at hwf
          by_cases hr1 : (t.dropWhile isWordChar).head? = some rbrace
          · rw [if_pos hr1] at hwf
            simp only [Bool.and_eq_true, Bool.not_eq_true', decide_eq_true_eq] at hwf
            obtain ⟨⟨hrunne, hrunmem⟩, hwfrest⟩ := hwf
            obtain ⟨p, hfind⟩ : ∃ p, rp.find? (fun q => decide (q.1 = t.takeWhile isWordChar)) = some p := by
              cases hf : rp.find? (fun q => decide (q.1 = t.takeWhile isWordChar)) with
              | some p => exact ⟨p, rfl⟩
              | none =>
                rw [List.find?_eq_none] at hf
                rcases List.mem_map.1 hrunmem with ⟨q, hq, hq1⟩
                exact absurd (by simp [hq1]) (hf q hq)
            have hp1 : p.1 = t.takeWhile isWordChar := by
              have := List.find?_some hfind
              simpa using this
            have hlent : (t.dropWhile isWordChar).tail.length < fuel := by
              have h1 : (t.dropWhile isWordChar).Sublist t := List.dropWhile_sublist isWordChar
              have h2 := h1.length_le
              have h3 := List.length_tail (t.dropWhile isWordChar)
              simp only [List.length_cons] at hlen
              omega
            have hrec := ih rp (t.dropWhile isWordChar).tail hlent hvalid hkw hwfrest
            obtain ⟨q, hq, hq1⟩ := List.mem_map.1 hrunmem
            have hqfacts := hkw q hq
            have hrkw : t.takeWhile isWordChar ∉ tmplKeywords := hq1 ▸ hqfacts.1
            have hrtf : ¬(t.takeWhile isWordChar = "true".data ∨
                t.takeWhile isWordChar = "false".data) := by
              rintro (hb | hb)
              · exact hqfacts.2.1 (hq1 ▸ hb)
              · exact hqfacts.2.2 (hq1 ▸ hb)
            rw [interp_ph, if_pos hr1, if_neg (by rw [hrunne]; exact Bool.noConfusion),
              if_neg hrtf, if_neg hrkw]
            rw [lookupN_eq_find, hfind]
            simp only [Option.map_some']
            rw [hrec]
            simp only [Option.map_some', Option.some.injEq]
            rw [specInterpolate]
            rw [find_ph hvalid hr1, hfind]
            have hdrop : ('$' :: lbrace :: t).drop (phTok p.1).length =
                (t.dropWhile isWordChar).tail := by
              have hlenph : (phTok p.1).length = (t.takeWhile isWordChar).length + 3 := by
                rw [hp1]
                simp [phTok]
              rw [hlenph]
              rw [show (t.takeWhile isWordChar).length + 3 =
                ((t.takeWhile isWordChar).length + 1) + 1 + 1 by omega]
              rw [List.drop_succ_cons, List.drop_succ_cons]
              exact drop_tk t
            change p.2 ++ specInterpolate fuel rp (List.dropWhile isWordChar t).tail =
              p.2 ++ specInterpolate fuel rp (List.drop (phTok p.1).length ('$' :: lbrace :: t))
            rw [hdrop]
          · rw [if_neg hr1] at hwf
            exact Bool.noConfusion hwf
      · rw [wfT_nph _ _ _ _ hph] at hwf
        have hlens : s1.length < fuel := by
          simp only [List.length_cons] at hlen
          omega
        rw [interp_nph _ _ _ _ hph, ih rp s1 hlens hvalid hkw hwf]
        simp only [Option.map_some', Option.some.injEq]
        rw [specInterpolate, find_ph_none c s1 hph]

theorem checkSubrules_shape {gn rn : Name} {l : List Name} {e : GErr}
    (h : checkSubrules gn rn l = some e) :
    (∃ s, e = .invalidSubruleName gn rn s) ∨ e = .selfReference gn rn := by
  induction l with
  | nil => exact Option.noConfusion h
  | cons s rest ih =>
    rw [checkSubrules] at h
    by_cases h1 : isValidRuleName s
    · rw [if_neg (by simp [h1])] at h
      by_cases h2 : s = rn
      · rw [if_pos h2] at h
        exact Or.inr (Option.some.inj h).symm
      · rw [if_neg h2] at h
        exact ih h
    · rw [if_pos (by simp [h1])] at h
      exact Or.inl ⟨s, (Option.some.inj h).symm⟩

/-- C1: in a fresh Grammar, the normalizing adds of the NUMBER rule and of
the MANY rule both succeed, finalization succeeds, and the MANY lookup
yields the expected fully expanded text together with a compiled pattern
that matches the string of three numbers. -/
theorem c1_end_to_end :
    (Add' (New "G".data) "NUMBER".data c1numberRaw).1 = none
    ∧ (Add' (Add' (New "G".data) "NUMBER".data c1numberRaw).2 "MANY".data c1manyRaw).1 = none
    ∧ c1final = some c1expected
    ∧ c1match = some true := by
  exact ⟨by decide, by decide, by decide, by decide⟩

/-- C2: for every grammar with distinct rule names whose referenced
subrules all exist and whose dependency graph is acyclic, toposort
succeeds and returns a permutation of the rule names in which every rule
is placed after every rule it references. -/
theorem c2_toposort_correct (g : Grammar) (hk : (keys g).Nodup) (hcl : Closed g)
    (hac : Acyclic g) :
    ∃ s, toposort g = .ok s ∧ s.Perm (keys g) ∧
      ∀ a b, edge g a b → b ∈ s ∧ a ∈ s ∧ posOf s b < posOf s a := by
  obtain ⟨s, hs⟩ := toposort_ok_of_acyclic hcl hac
  obtain ⟨hperm, horder⟩ := toposort_ok_props hk hs
  exact ⟨s, hs, hperm, horder⟩

/-- Witness for C2 at a concrete two-rule grammar without references. -/
theorem c2_toposort_correct_witness :
    ∃ s, toposort c2g = .ok s ∧ s.Perm (keys c2g) ∧
      ∀ a b, edge c2g a b → b ∈ s ∧ a ∈ s ∧ posOf s b < posOf s a := by
  have hall : ∀ p ∈ c2g.rules, p.2.subrules = [] := by decide
  have hnoedge : ∀ a b, ¬ edge c2g a b := by
    rintro a b ⟨p, hp, _, hbs⟩
    rw [hall p hp] at hbs
    exact absurd hbs (List.not_mem_nil b)
  refine c2_toposort_correct c2g (by decide) (by decide) ?_
  intro n hn
  cases hn with
  | single h => exact hnoedge _ _ h
  | tail _ h => exact hnoedge _ _ h

/-- C3: a grammar with distinct rule names whose referenced subrules all
exist but whose dependency graph has a cycle fails to compile with the
cyclic-dependency error carrying a nonempty subset of the rule names that
contains every rule lying on a cycle; and when the graph is acyclic no
cyclic-dependency error is ever produced. -/
theorem c3_cycle_detection :
    (∀ g : Grammar, (keys g).Nodup → Closed g → g.compiled = false →
        (∃ n, Relation.TransGen (edge g) n n) →
        ∃ rem, Compile g = .err (.cyclicDependency g.name rem) g ∧
          rem ≠ [] ∧ rem ⊆ keys g ∧ ∀ n, Relation.TransGen (edge g) n n → n ∈ rem)
    ∧ (∀ g : Grammar, Closed g → Acyclic g →
        ∀ gn rem g2, Compile g ≠ .err (.cyclicDependency gn rem) g2) := by
  constructor
  · intro g hk hcl hc hcyc
    exact Compile_cyclic hc hk hcl hcyc
  · intro g hcl hac
    exact Compile_no_cyclic hcl hac

/-- Witness for C3 at the three-rule cycle of TestCyclicReference. -/
theorem c3_cycle_detection_witness :
    ∃ rem, Compile c3g = .err (.cyclicDependency c3g.name rem) c3g ∧
      rem ≠ [] ∧ rem ⊆ keys c3g ∧ ∀ n, Relation.TransGen (edge c3g) n n → n ∈ rem := by
  have e1 : edge c3g "ONE".data "TWO".data := by decide
  have e2 : edge c3g "TWO".data "TRE".data := by decide
  have e3 : edge c3g "TRE".data "ONE".data := by decide
  exact c3_cycle_detection.1 c3g (by decide) (by decide) (by decide)
    ⟨"ONE".data, Relation.TransGen.head e1 (Relation.TransGen.head e2 (Relation.TransGen.single e3))⟩

/-- C4 counterexample: the double-brace text of TestTemplateError is not
passed through unchanged; compiling it fails with a template error and
the expanded text of the rule is never produced. -/
theorem c4_passthrough_counterexample :
    Compile c4g = .err (.templateErr "TEST".data "TWO".data) c4gAfter
    ∧ (findRule c4gAfter "TWO".data).map (·.final) = some [] := by
  exact ⟨by decide, by decide⟩

/-- C4 amended: on patterns whose dollar-brace occurrences are all
well-formed placeholders naming mapped rules, none of which is a
template keyword or the boolean literal true or false, the
interpolation step succeeds and equals the literal, never-rescanned
replacement the specification describes. Outside that scope the
template engine intrudes: a dollar-brace occurrence the scanner did not
extract, such as the double-brace typo, yields a template error; a
placeholder naming a rule called true or false expands to that literal
text rather than to the rule, and a placeholder naming a rule called
like a template keyword yields a template error even though the rule
exists. -/
theorem c4_literal_interpolation_amended :
    (∀ fuel (rp : List (Name × Name)) (s : List Char), s.length < fuel →
      (∀ p ∈ rp, isValidRuleName p.1 = true) →
      (∀ p ∈ rp, p.1 ∉ tmplKeywords ∧ p.1 ≠ "true".data ∧ p.1 ≠ "false".data) →
      wfT fuel (rp.map (·.1)) s = true →
      interp fuel rp s = some (specInterpolate fuel rp s))
    ∧ Compile c4g = .err (.templateErr "TEST".data "TWO".data) c4gAfter
    ∧ (compiledOf (Compile c4trueG)).bind
        (fun g2 => (findRule g2 "X".data).map (·.final)) = some "xtruey".data
    ∧ Compile c4ifG = .err (.templateErr "KW".data "X".data) (stateOf (Compile c4ifG)) := by
  exact ⟨interp_eq_specInterpolate, by decide, by decide, by decide⟩

/-- Witness for C4 at a replacement whose value itself contains a
placeholder token, which is inserted without being rescanned. -/
theorem c4_literal_interpolation_witness :
    interp 8 [("A".data, "$\x7bB\x7d".data)] "x$\x7bA\x7dy".data =
      some (specInterpolate 8 [("A".data, "$\x7bB\x7d".data)] "x$\x7bA\x7dy".data) :=
  c4_literal_interpolation_amended.1 8 [("A".data, "$\x7bB\x7d".data)] "x$\x7bA\x7dy".data
    (by decide) (by decide) (by decide) (by decide)

/-- C5 counterexample: after a finalize attempt fails with a missing
rule, the grammar is unchanged, the missing rule can still be added, and
a second finalize succeeds — add and finalize can be reissued. -/
theorem c5_reissue_counterexample :
    Compile c5g1 = .err (.missingSubrule "T".data "ONE".data "TWO".data) c5g1
    ∧ (Add' c5g1 "TWO".data "y".data).1 = none
    ∧ Compile c5g2 = .ok c5g3 := by
  exact ⟨by decide, by decide, by decide⟩

/-- C5 amended: a failed finalize leaves the grammar un-finalized, and
neither add nor finalize is refused as already-finalized afterwards; the
already-finalized refusals arise only after a successful finalize. -/
theorem c5_failed_finalize_amended (g : Grammar) (e : GErr) (g2 : Grammar)
    (hc : g.compiled = false) (h : Compile g = .err e g2) :
    g2.compiled = false
    ∧ (∀ n pat, (add g2 n pat).1 ≠ some (.alreadyCompiledAdd g2.name n))
    ∧ (∀ g3, Compile g2 ≠ .err (.alreadyCompiled g2.name) g3) := by
  have hg2 : g2.compiled = false := Compile_err_not_finalized hc h
  refine ⟨hg2, ?_, ?_⟩
  · intro n pat hadd
    rw [add] at hadd
    by_cases h1 : isValidRuleName n
    · rw [if_neg (by simp [h1])] at hadd
      rw [if_neg (by simp [hg2])] at hadd
      by_cases h3 : (findRule g2 n).isSome
      · rw [if_pos h3] at hadd
        exact GErr.noConfusion (Option.some.inj hadd)
      · rw [if_neg h3] at hadd
        cases hcs : checkSubrules g2.name n (findSubrules ⟨n, [], pat, [], none⟩) with
        | some e2 =>
          rw [hcs] at hadd
          rcases checkSubrules_shape hcs with ⟨s2, hs2⟩ | hs2 <;>
            (rw [hs2] at hadd; exact GErr.noConfusion (Option.some.inj hadd))
        | none =>
          rw [hcs] at hadd
          exact Option.noConfusion hadd
    · rw [if_pos (by simp [h1])] at hadd
      exact GErr.noConfusion (Option.some.inj hadd)
  · intro g3 hcompile
    rw [Compile] at hcompile
    rw [if_neg (by simp [hg2])] at hcompile
    cases hm : findMissing g2 with
    | some v =>
      rw [hm] at hcompile
      cases v
      exact GErr.noConfusion (Outcome.err.inj hcompile).1
    | none =>
      rw [hm] at hcompile
      cases ht : toposort g2 with
      | error rem =>
        rw [ht] at hcompile
        exact GErr.noConfusion (Outcome.err.inj hcompile).1
      | ok s =>
        rw [ht] at hcompile
        obtain ⟨⟨gn, rn, hsh⟩, _⟩ := compileWalk_err_shape s g2 g3 hcompile
        rcases hsh with hsh | hsh <;> exact GErr.noConfusion hsh

/-- Witness for C5 at the concrete missing-rule failure. -/
theorem c5_failed_finalize_witness :
    c5g1.compiled = false
    ∧ (∀ n pat, (add c5g1 n pat).1 ≠ some (.alreadyCompiledAdd c5g1.name n))
    ∧ (∀ g3, Compile c5g1 ≠ .err (.alreadyCompiled c5g1.name) g3) :=
  c5_failed_finalize_amended c5g1 (.missingSubrule "T".data "ONE".data "TWO".data) c5g1
    (by decide) (by decide)

/-- C6 counterexample: Trim is not idempotent, because collapsing the
whitespace of the input creates a new comment marker that only the
second Trim strips. -/
theorem c6_trim_not_idempotent_counterexample :
    Trim (Trim "a/ /b".data) ≠ Trim "a/ /b".data := by decide

/-- C6 amended: Trim is idempotent on every input whose trimmed form
contains no double slash; in general a second Trim can strip more. -/
theorem c6_trim_idempotent_amended (s : List Char)
    (h : noDoubleSlash (Trim s) = true) : Trim (Trim s) = Trim s := by
  conv_lhs => rw [Trim]
  rw [stripComments_id _ _ (Nat.lt_succ_self _) h]
  conv_lhs => rw [Trim]
  conv_rhs => rw [Trim]
  exact filter_self_idem _ _

/-- Witness for C6 at the specification example input. -/
theorem c6_trim_idempotent_witness :
    Trim (Trim "foo bar // baz\ntaz\n".data) = Trim "foo bar // baz\ntaz\n".data :=
  c6_trim_idempotent_amended "foo bar // baz\ntaz\n".data (by decide)

/-- C7: on an uncompiled grammar referencing a missing subrule, Compile
fails with the missing-subrule error and leaves the grammar exactly as it
was, so no expanded text or compiled pattern is produced; afterwards a
lookup of a never-added name reports it as not added and a lookup of any
added name reports the grammar as not compiled. -/
theorem c7_missing_rule_precedes (g : Grammar) (hc : g.compiled = false)
    (hncl : ¬ Closed g) :
    (∃ rn sn, Compile g = .err (.missingSubrule g.name rn sn) g)
    ∧ (∀ n, findRule g n = none → Rx g n = .error (.ruleNotAdded g.name n))
    ∧ (∀ n r, findRule g n = some r → Rx g n = .error (.notCompiled g.name)) := by
  refine ⟨Compile_missing hc hncl, ?_, ?_⟩
  · intro n hn
    simp [Rx, hn]
  · intro n r hn
    simp [Rx, hn, hc]

/-- Witness for C7 at the grammar of TestMissingRule. -/
theorem c7_missing_rule_witness :
    (∃ rn sn, Compile c7g = .err (.missingSubrule "T".data rn sn) c7g)
    ∧ Rx c7g "TWO".data = .error (.ruleNotAdded "T".data "TWO".data)
    ∧ Rx c7g "ONE".data = .error (.notCompiled "T".data) := by
  have h := c7_missing_rule_precedes c7g (by decide) (by decide)
  exact ⟨h.1, h.2.1 "TWO".data (by decide),
    h.2.2 "ONE".data ((findRule c7g "ONE".data).getD default) (by decide)⟩

/-- C8: whenever add returns an error the rule set is unchanged; in
particular a rule named SELF whose text holds the SELF placeholder fails
at add time with the self-reference error, and a duplicate add fails and
leaves the first addition intact. -/
theorem c8_add_atomic :
    (∀ (g : Grammar) (rn pat : Name) (e : GErr),
      (add g rn pat).1 = some e → (add g rn pat).2 = g)
    ∧ (Add' (New "G".data) "SELF".data "interpolate $\x7bSELF\x7d here".data).1 =
        some (.selfReference "G".data "SELF".data)
    ∧ (Add' c8dupG "ONE".data "y".data).1 = some (.duplicateRule "T".data "ONE".data)
    ∧ (Add' c8dupG "ONE".data "y".data).2 = c8dupG := by
  refine ⟨?_, by decide, by decide, by decide⟩
  intro g rn pat e h
  rw [add] at h ⊢
  by_cases h1 : isValidRuleName rn
  · rw [if_neg (by simp [h1])] at h ⊢
    by_cases h2 : g.compiled
    · rw [if_pos h2]
    · rw [if_neg h2] at h ⊢
      by_cases h3 : (findRule g rn).isSome
      · rw [if_pos h3]
      · rw [if_neg h3] at h ⊢
        cases hcs : checkSubrules g.name rn (findSubrules ⟨rn, [], pat, [], none⟩) with
        | some e2 => rfl
        | none =>
          rw [hcs] at h
          exact Option.noConfusion h
  · rw [if_pos (by simp [h1])]

/-- Witness for C8 at the concrete duplicate add. -/
theorem c8_add_atomic_witness :
    (add c8dupG "ONE".data (Trim "y".data)).2 = c8dupG :=
  c8_add_atomic.1 c8dupG "ONE".data (Trim "y".data)
    (.duplicateRule "T".data "ONE".data) (by decide)

/-- C9: adding a valid rule A and a rule B whose expansion is an invalid
regexp makes the first Compile fail with a regexp error after A was
already compiled, and a second Compile on the resulting state panics
with the logic-error message instead of returning an error. -/
theorem c9_second_compile_panics :
    Compile c9g = .err (.regexpErr "P".data "B".data) c9gAfter
    ∧ (findRule c9gAfter "A".data).map (fun r => r.rx.isSome) = some true
    ∧ Compile c9gAfter = .panicked "logic error, rule is already compiled".data c9gAfter := by
  exact ⟨by decide, by decide, by decide⟩

/-- C10: on a grammar that is not compiled, looking up a name that was
never added yields the not-added error, not the not-compiled error. -/
theorem c10_rx_unknown_precedence (g : Grammar) (n : Name)
    (_hc : g.compiled = false) (hn : findRule g n = none) :
    Rx g n = .error (.ruleNotAdded g.name n) ∧ Rx g n ≠ .error (.notCompiled g.name) := by
  constructor
  · simp [Rx, hn]
  · simp [Rx, hn]

/-- Witness for C10 at a one-rule grammar and an unknown name. -/
theorem c10_rx_unknown_precedence_witness :
    Rx c8dupG "TWO".data = .error (.ruleNotAdded "T".data "TWO".data)
    ∧ Rx c8dupG "TWO".data ≠ .error (.notCompiled "T".data) :=
  c10_rx_unknown_precedence c8dupG "TWO".data (by decide) (by decide)
